import Mathlib

/-!
Verification of the Ox streaming XML builder (`ext/ox/builder.c`).

The C source is shallowly embedded: the byte buffer (`Buf`) is a `List Char`
of emitted bytes (each `Char` stands for one byte, value < 256), the builder
struct is a Lean structure, and every static C function of the file is
translated to a Lean function of the same name.  Errors raised with
`rb_raise` are modelled by an `Option XErr` component paired with the state
at the moment of the raise (so mutations made before the raise are kept,
exactly as `rb_raise`'s longjmp keeps them in C).
-/

namespace OxBuilder

/-- Error kinds corresponding to the `rb_raise` sites in builder.c. -/
inductive XErr where
  | unbalancedClose
  | tooDeeplyNested
  | invalidCharacter
  | unsupportedToS
  deriving DecidableEq, Repr

/-- The 257-entry classification table `xml_friendly_chars` from builder.c,
written as the same eight 32-character rows.  Entry 256 is the string's
terminating NUL, a sentinel never read by `xml_str_len`. -/
def xml_friendly_chars : String :=
  ":::::::::11::1::::::::::::::::::" ++
  "11611156111111111111111111114141" ++
  "11111111111111111111111111111111" ++
  "11111111111111111111111111111111" ++
  "11111111111111111111111111111111" ++
  "11111111111111111111111111111111" ++
  "11111111111111111111111111111111" ++
  "11111111111111111111111111111111"

/-- Character code stored at index `n` of `xml_friendly_chars`, written out
arithmetically: bytes 9, 10, 13 (tab, LF, CR) and all bytes 32..255 except
the five XML-special ones hold '1' (49); the remaining control bytes hold
':' (58); '"' (34) and '\'' (39) hold '6' (54); '&' (38) holds '5' (53);
'<' (60) and '>' (62) hold '4' (52).  Index 256 is the terminating NUL. -/
def xmlFriendlyCode (n : Nat) : Nat :=
  if n = 9 ∨ n = 10 ∨ n = 13 then 49
  else if n < 32 then 58
  else if n = 34 then 54
  else if n = 38 then 53
  else if n = 39 then 54
  else if n = 60 then 52
  else if n = 62 then 52
  else if n < 256 then 49
  else 0

/-- Loop of `xml_str_len`: `size` accumulates the table's character codes.
The loop of the C function decrements its `len` parameter itself. -/
def xml_str_len_loop : List Char → Nat → Nat
  | [], size => size
  | c :: rest, size => xml_str_len_loop rest (size + xmlFriendlyCode c.toNat)

/-- `xml_str_len` from builder.c.  After the loop the (mutated) `len` is 0,
so the source's final `size - len * '0'` subtracts `0 * 48`: the function
returns the plain sum of table character codes.  (Consequently the
`size == xsize` fast path of `append_string` only fires for empty input.) -/
def xml_str_len (s : List Char) : Nat := xml_str_len_loop s 0 - 0 * 48

/-- The named-entity substitution of the `switch` in `append_string`. -/
def escEntity (c : Char) : Option (List Char) :=
  if c = '"' then some "&quot;".toList
  else if c = '&' then some "&amp;".toList
  else if c = '\'' then some "&apos;".toList
  else if c = '<' then some "&lt;".toList
  else if c = '>' then some "&gt;".toList
  else none

/-- Slow path of `append_string`: `bp` is the contents of the local 256-byte
run buffer (`end` is `buf + 255`, so it flushes once it holds 255 bytes),
`acc` the target buffer.  The loop guard `'\0' != *str && 0 < i` stops at a
NUL byte, flushing the pending run and ignoring the rest of the input. -/
def append_string_slow : List Char → List Char → List Char → Option XErr × List Char
  | [], bp, acc => (none, acc ++ bp)
  | c :: rest, bp, acc =>
    if c = '\x00' then (none, acc ++ bp)
    else if xmlFriendlyCode c.toNat = 49 then
      if 255 ≤ bp.length then append_string_slow rest [c] (acc ++ bp)
      else append_string_slow rest (bp ++ [c]) acc
    else
      match escEntity c with
      | some ent => append_string_slow rest [] (acc ++ bp ++ ent)
      | none => (some .invalidCharacter, acc ++ bp)

/-- `append_string` from builder.c: fast path when the computed expanded size
equals the input size, otherwise the escaping slow path. -/
def append_string (acc : List Char) (s : List Char) : Option XErr × List Char :=
  if s.length = xml_str_len s then (none, acc ++ s)
  else append_string_slow s [] acc

/-! Specification-side functions for the escaping claims (stated from the
claim's own words, to be compared with `append_string`). -/

/-- Per-byte escaping map described by the claims: the five special bytes
become their named entities, all other bytes stay verbatim. -/
def escapeChar (c : Char) : List Char :=
  match escEntity c with
  | some ent => ent
  | none => [c]

/-- Byte-wise escaping of a whole string (claim wording). -/
def escapeAll : List Char → List Char
  | [] => []
  | c :: rest => escapeChar c ++ escapeAll rest

/-- Reversal of the five named entities (claim wording: replace each entity
occurrence by its byte, leave everything else alone). -/
def unescapeXml : List Char → List Char
  | [] => []
  | '&' :: rest =>
    match rest with
    | 'a' :: 'm' :: 'p' :: ';' :: t => '&' :: unescapeXml t
    | 'q' :: 'u' :: 'o' :: 't' :: ';' :: t => '"' :: unescapeXml t
    | 'a' :: 'p' :: 'o' :: 's' :: ';' :: t => '\'' :: unescapeXml t
    | 'l' :: 't' :: ';' :: t => '<' :: unescapeXml t
    | 'g' :: 't' :: ';' :: t => '>' :: unescapeXml t
    | t => '&' :: unescapeXml t
  | c :: rest => c :: unescapeXml rest

/-- A byte the classification table does not reject: either safe ('1') or
one of the five entity-replaced bytes. -/
def escapableChar (c : Char) : Bool :=
  (xmlFriendlyCode c.toNat = 49 : Bool) || (escEntity c).isSome

/-- A byte string free of illegal XML bytes. -/
def escapable (s : List Char) : Prop := ∀ c ∈ s, escapableChar c = true

instance : DecidablePred escapable := fun s =>
  inferInstanceAs (Decidable (∀ c ∈ s, escapableChar c = true))

/-- A byte string of safe bytes only (none of the five, no illegal bytes). -/
def allSafe (s : List Char) : Prop := ∀ c ∈ s, xmlFriendlyCode c.toNat = 49

instance : DecidablePred allSafe := fun s =>
  inferInstanceAs (Decidable (∀ c ∈ s, xmlFriendlyCode c.toNat = 49))

/-! The builder data model (struct _Element / struct _Builder of builder.c). -/

/-- One open-element frame.  The inline `buf[64]` / heap `name` distinction of
the C struct is a small-string optimization with no effect on the bytes
emitted (both store the element name), so the frame keeps one `name` field;
`len` is the stored length used by `pop`'s `buf_append_string(e->name, e->len)`. -/
structure Element where
  name : List Char
  len : Nat
  has_child : Bool
  non_text_child : Bool
  deriving DecidableEq, Repr

instance : Inhabited Element := ⟨⟨[], 0, false, false⟩⟩

/-- The builder struct.  `out` is the byte stream appended to the `Buf` so
far (buf.c is not part of the sources; modelled from the spec: `append(bytes)`
appends raw bytes and `finish()` flushes without changing them).  `fd` is
`buf.fd` (0 for the memory sink), `hasFile` records a non-NULL `b->file`,
and `fcloses` counts the `fclose(b->file)` calls made by `bclose`.  The
open-frame stack is kept topmost-first; `depth` mirrors the C `depth` field
(-1 when no element is open). -/
structure BState where
  out : List Char
  fd : Nat
  hasFile : Bool
  fcloses : Nat
  indent : Nat
  depth : Int
  stack : List Element
  deriving DecidableEq, Repr

/-- The 129-character indentation source `indent_spaces` ("\n" + 128 spaces;
`sizeof` in C is 130 counting the terminating NUL). -/
def indent_spaces : List Char := '\n' :: List.replicate 128 ' '

/-- `init` from builder.c. -/
def init (indent : Nat) (fd : Nat) : BState :=
  { out := [], fd := fd, hasFile := false, fcloses := 0,
    indent := indent, depth := -1, stack := [] }

/-- `append_indent` from builder.c: no-op when `indent == 0` or when nothing
has been written yet (`buf.head < buf.tail` fails); otherwise appends the
first `cnt = indent*(depth+1)+1` characters of `indent_spaces`, capped at
`sizeof(indent_spaces) - 1 = 129`.  `depth ≥ -1` always holds where this is
called, so the C `int` product equals the `Nat` form used here. -/
def append_indent (b : BState) : BState :=
  if b.indent = 0 then b
  else if b.out = [] then b
  else
    let cnt := b.indent * (b.depth + 1).toNat + 1
    let cnt := if 130 ≤ cnt then 129 else cnt
    { b with out := b.out ++ indent_spaces.take cnt }

/-- `i_am_a_child` from builder.c. -/
def i_am_a_child (b : BState) (is_text : Bool) : BState :=
  if 0 ≤ b.depth then
    match b.stack with
    | [] => b
    | e :: rest =>
      let p := if e.has_child then (e, b.out)
               else ({ e with has_child := true }, b.out ++ ['>'])
      let e := if is_text then p.1 else { p.1 with non_text_child := true }
      { b with out := p.2, stack := e :: rest }
  else b

/-- `append_attr` from builder.c: a space, the key through `append_sym_str`
(hence through `append_string`, escaped), then `="`, then the value appended
verbatim with `buf_append_string` (no escaping, no validation), then `"`. -/
def append_attr (out : List Char) (key value : List Char) : Option XErr × List Char :=
  let out := out ++ [' ']
  match append_string out key with
  | (some e, out) => (some e, out)
  | (none, out) => (none, out ++ '=' :: '"' :: (value ++ ['"']))

/-- The `rb_hash_foreach(argv[1], append_attr, ...)` iteration: attributes in
caller-supplied order; a raise from `append_attr` stops the iteration. -/
def appendAttrs (out : List Char) : List (List Char × List Char) → Option XErr × List Char
  | [] => (none, out)
  | (k, v) :: rest =>
    match append_attr out k v with
    | (none, out) => appendAttrs out rest
    | (some e, out) => (some e, out)

/-- `builder_element` from builder.c: mark-child on the parent, indentation,
`depth++`, the MAX_DEPTH check (raising after the increment), then the frame
is filled and `<name` plus the attributes are written.  The terminating `>`
or `/>` is deliberately left for `i_am_a_child` or `pop`. -/
def builder_element (b : BState) (name : List Char)
    (attrs : List (List Char × List Char)) : Option XErr × BState :=
  let b := i_am_a_child b false
  let b := append_indent b
  let b := { b with depth := b.depth + 1 }
  if 128 ≤ b.depth then (some .tooDeeplyNested, b)
  else
    let e : Element := { name := name, len := name.length,
                         has_child := false, non_text_child := false }
    let b := { b with stack := e :: b.stack, out := b.out ++ '<' :: name }
    match appendAttrs b.out attrs with
    | (err, out) => (err, { b with out := out })

/-- `pop` from builder.c. -/
def pop (b : BState) : Option XErr × BState :=
  if b.depth < 0 then (some .unbalancedClose, b)
  else
    let e := b.stack.headD default
    let b := { b with depth := b.depth - 1, stack := b.stack.tail }
    if e.has_child then
      let b := if e.non_text_child then append_indent b else b
      (none, { b with out := b.out ++ '<' :: '/' :: (e.name.take e.len ++ ['>']) })
    else
      (none, { b with out := b.out ++ ['/', '>'] })

/-- Body of the `while (0 <= b->depth) pop(b);` loop of `bclose`, with an
explicit iteration bound. -/
def popAllF : Nat → BState → BState
  | 0, b => b
  | n + 1, b => if 0 ≤ b.depth then popAllF n (pop b).2 else b

/-- The `while (0 <= b->depth) pop(b);` loop of `bclose`.  Each successful
`pop` decrements `depth` by one (`pop_depth`), so the loop runs exactly
`(depth + 1).toNat` times; that count is passed as structural fuel. -/
def popAll (b : BState) : BState := popAllF (b.depth + 1).toNat b

/-- `bclose` from builder.c: pop every open frame, append the trailing
newline unconditionally, flush (`buf_finish`, byte-stream no-op), and
`fclose` the FILE if one is owned. -/
def bclose (b : BState) : BState :=
  let b := popAll b
  let b := { b with out := b.out ++ ['\n'] }
  if b.hasFile then { b with fcloses := b.fcloses + 1 } else b

/-- The `*(b->buf.tail - 1)` read performed by `to_s`: the byte just before
the buffer tail, which exists only if at least one byte has been written. -/
def tailRead (b : BState) : Option Char := b.out.getLast?

/-- `to_s` from builder.c: raises for a stream/file builder; otherwise reads
the byte before the tail (out of bounds when the buffer is empty — modelled
as the `none` case of `tailRead`), appends a newline unless that byte already
is one, and returns the buffer contents.  The result component is `none`
exactly when the C code's read is out of bounds or it raised. -/
def to_s (b : BState) : Option XErr × BState × Option (List Char) :=
  if b.fd ≠ 0 then (some .unsupportedToS, b, none)
  else
    match tailRead b with
    | none => (none, b, none)
    | some c =>
      let b := if c ≠ '\n' then { b with out := b.out ++ ['\n'] } else b
      (none, b, some b.out)

/-- `builder_comment` from builder.c: mark-child, indentation, then the
5-byte opener (bang, two hyphens, space), the unescaped payload, and the
first 5 bytes of the source's 6-byte closer literal, i.e. a space, two
hyphens, a slash and a greater-than sign - not the standard XML terminator. -/
def builder_comment (b : BState) (text : List Char) : BState :=
  let b := i_am_a_child b false
  let b := append_indent b
  { b with out := b.out ++ "<!-- ".toList ++ text ++ " --/>".toList }

/-- `builder_doctype` from builder.c. -/
def builder_doctype (b : BState) (text : List Char) : BState :=
  let b := i_am_a_child b false
  let b := append_indent b
  { b with out := b.out ++ "<!DOCTYPE ".toList ++ text ++ ['>'] }

/-- `builder_cdata` from builder.c. -/
def builder_cdata (b : BState) (data : List Char) : BState :=
  let b := i_am_a_child b false
  let b := append_indent b
  { b with out := b.out ++ "<![CDATA[".toList ++ data ++ "]]>".toList }

/-- `builder_text` from builder.c: mark-child as text, then the payload
through `append_string` (escaped; can raise). -/
def builder_text (b : BState) (text : List Char) : Option XErr × BState :=
  let b := i_am_a_child b true
  match append_string b.out text with
  | (err, out) => (err, { b with out := out })

/-- `builder_raw` from builder.c: mark-child as text, payload verbatim. -/
def builder_raw (b : BState) (text : List Char) : BState :=
  let b := i_am_a_child b true
  { b with out := b.out ++ text }

/-- The public operations of the Builder call protocol. -/
inductive Op where
  | element (name : List Char) (attrs : List (List Char × List Char))
  | text (s : List Char)
  | comment (s : List Char)
  | cdata (s : List Char)
  | doctype (s : List Char)
  | raw (s : List Char)
  | pop
  | close
  deriving DecidableEq, Repr

def applyOp (b : BState) : Op → Option XErr × BState
  | .element n a => builder_element b n a
  | .text s => builder_text b s
  | .comment s => (none, builder_comment b s)
  | .cdata s => (none, builder_cdata b s)
  | .doctype s => (none, builder_doctype b s)
  | .raw s => (none, builder_raw b s)
  | .pop => pop b
  | .close => (none, bclose b)

/-- Run a call sequence; a raise aborts the sequence, keeping the state at
the moment of the raise. -/
def runOps : List Op → BState → Option XErr × BState
  | [], b => (none, b)
  | op :: rest, b =>
    match applyOp b op with
    | (none, b') => runOps rest b'
    | (some e, b') => (some e, b')

/-! Well-formed call sequences.  A call sequence in which every `element` is
matched by a `pop` (in Dyck fashion) is exactly the flattening of a forest
of call trees; the flattening functions below produce those sequences. -/

/-- Abstract call tree: an element with attributes and children, or text. -/
inductive XTree where
  | elem (name : List Char) (attrs : List (List Char × List Char)) (children : List XTree)
  | txt (s : List Char)

mutual
/-- The call sequence of one tree: open the element, emit the children's
calls, pop (for a text tree: a single text call). -/
def flattenTree : XTree → List Op
  | .elem n a cs => Op.element n a :: (flattenForest cs ++ [Op.pop])
  | .txt s => [Op.text s]
/-- The call sequence of a forest, in order. -/
def flattenForest : List XTree → List Op
  | [] => []
  | t :: ts => flattenTree t ++ flattenForest ts
end

mutual
/-- Nesting depth contributed by one tree. -/
def treeDepth : XTree → Nat
  | .elem _ _ cs => 1 + forestDepth cs
  | .txt _ => 0
/-- Nesting depth of a forest. -/
def forestDepth : List XTree → Nat
  | [] => 0
  | t :: ts => max (treeDepth t) (forestDepth ts)
end

def isTextT : XTree → Bool
  | .txt _ => true
  | .elem .. => false

/-- Whether a children list contains a non-text child. -/
def hasElem (cs : List XTree) : Bool := cs.any fun t => !isTextT t

mutual
/-- All text payloads and attribute keys in the tree are free of illegal
bytes, so the escaping paths succeed. -/
def goodTree : XTree → Prop
  | .elem _ a cs => (∀ kv ∈ a, escapable kv.1) ∧ goodForest cs
  | .txt s => escapable s
def goodForest : List XTree → Prop
  | [] => True
  | t :: ts => goodTree t ∧ goodForest ts
end

/-- The frame `builder_element` stores for a pushed name. -/
def elemFrame (n : List Char) : Element :=
  { name := n, len := n.length, has_child := false, non_text_child := false }

/-- Bytes `appendAttrs` writes for an attribute list whose keys escape
successfully. -/
def attrBytes : List (List Char × List Char) → List Char
  | [] => []
  | (k, v) :: rest => ' ' :: (escapeAll k ++ '=' :: '"' :: (v ++ ['"'])) ++ attrBytes rest

/-- Pure form of `append_indent`: the bytes appended when the builder's
`depth + 1` is `m` and the buffer currently holds `out`. -/
def appIndentP (ind m : Nat) (out : List Char) : List Char :=
  if ind = 0 then out
  else if out = [] then out
  else
    let cnt := ind * m + 1
    let cnt := if 130 ≤ cnt then 129 else cnt
    out ++ indent_spaces.take cnt

/-- The `>` that the first child's `i_am_a_child` owes the still-open parent
tag, if any. -/
def gtB (b : BState) : List Char :=
  if 0 ≤ b.depth ∧ (b.stack.headD default).has_child = false then ['>'] else []

/-- Effect of one `i_am_a_child` call on the frame stack. -/
def markTopF (st : List Element) (is_text : Bool) : List Element :=
  match st with
  | [] => []
  | e :: r => { e with has_child := true, non_text_child := e.non_text_child || !is_text } :: r

/-- Accumulated effect on the frame stack of emitting a whole children list
under the current top frame. -/
def markTopForest (st : List Element) (cs : List XTree) : List Element :=
  match cs with
  | [] => st
  | _ :: _ =>
    match st with
    | [] => []
    | e :: r => { e with has_child := true, non_text_child := e.non_text_child || hasElem cs } :: r

/-- The `>` the first tree of a children list emits, if the list is
nonempty. -/
def gtBF (b : BState) (cs : List XTree) : List Char :=
  match cs with
  | [] => []
  | _ :: _ => gtB b

mutual
/-- Recursive serialization of one tree: the bytes the builder emits for the
tree's call sequence, starting from buffer contents `out`, with the element
sitting at (0-based) depth `d`.  Every opened tag is terminated here by
exactly one matching close or self-close and children are emitted strictly
inside their parent - the shape of this function is the LIFO-nesting claim. -/
def emitTree (ind d : Nat) (out : List Char) : XTree → List Char
  | .txt s => out ++ escapeAll s
  | .elem n a cs =>
    let out := appIndentP ind d out
    let out := out ++ '<' :: (n ++ attrBytes a)
    match cs with
    | [] => out ++ ['/', '>']
    | _ :: _ =>
      let out := emitForest ind (d + 1) (out ++ ['>']) cs
      let out := if hasElem cs then appIndentP ind d out else out
      out ++ '<' :: '/' :: (n ++ ['>'])
/-- Serialization of a forest of sibling trees, in order. -/
def emitForest (ind d : Nat) (out : List Char) : List XTree → List Char
  | [] => out
  | t :: ts => emitForest ind d (emitTree ind d out t) ts
end

/-- Builder-state well-formedness: the frame list holds exactly the
`depth + 1` open frames. -/
def wfB (b : BState) : Prop := -1 ≤ b.depth ∧ b.stack.length = (b.depth + 1).toNat

/-! A spec-side syntactic checker for tag well-formedness: scan the byte
stream, maintain the stack of open element names, fail on any mismatched or
malformed tag. -/

/-- Element name of an open-tag body: the bytes before the first space. -/
def tagName (content : List Char) : List Char := content.takeWhile (fun c => c ≠ ' ')

/-- Single-pass tag scanner.  On `<` it collects the tag body up to the next
`>` (failing if none exists or the body contains another `<`), then treats a
leading `/` as a close tag that must match the innermost open name, a
trailing `/` as a self-closing tag, and anything else as pushing a new open
name.  All other bytes are character data. -/
def scanTags : List Char → List (List Char) → Option (List (List Char))
  | [], st => some st
  | c :: rest, st =>
    if c = '<' then
      let content := rest.takeWhile (fun x => x ≠ '>')
      let after := rest.drop content.length
      if after = [] then none
      else if content.any (fun x => x = '<') then none
      else
        match content with
        | '/' :: nm =>
          match st with
          | top :: st2 => if nm = top then scanTags after.tail st2 else none
          | [] => none
        | _ =>
          if content.getLast? = some '/' then scanTags after.tail st
          else scanTags after.tail (tagName content :: st)
    else scanTags rest st
termination_by s _ => s.length
decreasing_by
  all_goals simp_all [List.length_drop]
  all_goals omega

/-- Syntactic well-formedness: the scan succeeds with no tag left open. -/
def wellFormedXml (s : List Char) : Prop := scanTags s [] = some []

/-- A tag-safe element name: nonempty and free of the bytes that would break
the emitted tag syntax (the writer does not validate names; the claim's
well-formedness guarantee is only meaningful for such names). -/
def nameOk (n : List Char) : Prop :=
  n ≠ [] ∧ ∀ c ∈ n, c ≠ '<' ∧ c ≠ '>' ∧ c ≠ '/' ∧ c ≠ ' '

/-- Attribute values are emitted verbatim; for the tag to stay well formed
they must not contain angle brackets. -/
def valueOk (v : List Char) : Prop := ∀ c ∈ v, c ≠ '<' ∧ c ≠ '>'

mutual
/-- Tag safety of a whole tree: names and attribute values keep the emitted
markup parseable. -/
def tagSafeTree : XTree → Prop
  | .elem n a cs => nameOk n ∧ (∀ kv ∈ a, valueOk kv.2) ∧ tagSafeForest cs
  | .txt _ => True
def tagSafeForest : List XTree → Prop
  | [] => True
  | t :: ts => tagSafeTree t ∧ tagSafeForest ts
end

set_option maxRecDepth 4000 in
/-- The arithmetic form agrees with the literal table rows. -/
theorem xmlFriendlyCode_agrees :
    ∀ n < 256, (xml_friendly_chars.toList.getD n '\x00').toNat = xmlFriendlyCode n := by
  decide

theorem escEntity_none_of_safe {c : Char} (h : xmlFriendlyCode c.toNat = 49) :
    escEntity c = none := by
  unfold escEntity
  split_ifs with h1 h2 h3 h4 h5
  · subst h1; exact absurd h (by decide)
  · subst h2; exact absurd h (by decide)
  · subst h3; exact absurd h (by decide)
  · subst h4; exact absurd h (by decide)
  · subst h5; exact absurd h (by decide)
  · rfl

theorem escapableChar_ne_nul {c : Char} (h : escapableChar c = true) : ¬ c = '\x00' := by
  intro hc; subst hc; exact absurd h (by decide)

theorem code_ge_49_of_escapable {c : Char} (h : escapableChar c = true) :
    49 ≤ xmlFriendlyCode c.toNat := by
  unfold escapableChar at h
  rcases Bool.or_eq_true_iff.mp h with h1 | h2
  · have := of_decide_eq_true h1; omega
  · unfold escEntity at h2
    split_ifs at h2 with g1 g2 g3 g4 g5
    · subst g1; decide
    · subst g2; decide
    · subst g3; decide
    · subst g4; decide
    · subst g5; decide
    · simp at h2

theorem xml_str_len_loop_add (s : List Char) :
    ∀ k, xml_str_len_loop s k = k + xml_str_len_loop s 0 := by
  induction s with
  | nil => intro k; simp [xml_str_len_loop]
  | cons c rest ih =>
    intro k
    simp only [xml_str_len_loop]
    rw [ih (k + xmlFriendlyCode c.toNat), ih (0 + xmlFriendlyCode c.toNat)]
    omega

theorem xml_str_len_ge (s : List Char) (h : escapable s) :
    49 * s.length ≤ xml_str_len s := by
  induction s with
  | nil => simp [xml_str_len, xml_str_len_loop]
  | cons c rest ih =>
    have hc : 49 ≤ xmlFriendlyCode c.toNat :=
      code_ge_49_of_escapable (h c (List.mem_cons_self ..))
    have hr := ih (fun x hx => h x (List.mem_cons_of_mem _ hx))
    simp only [xml_str_len, xml_str_len_loop, Nat.sub_zero, Nat.mul_zero] at *
    rw [xml_str_len_loop_add]
    simp only [List.length_cons]
    omega

theorem fastpath_only_empty {s : List Char} (h : escapable s)
    (heq : s.length = xml_str_len s) : s = [] := by
  cases s with
  | nil => rfl
  | cons c rest =>
    exfalso
    have := xml_str_len_ge (c :: rest) h
    simp only [List.length_cons] at heq this
    omega

theorem append_string_slow_eq (s : List Char) (h : escapable s) :
    ∀ bp acc, append_string_slow s bp acc = (none, acc ++ bp ++ escapeAll s) := by
  induction s with
  | nil => intro bp acc; simp [append_string_slow, escapeAll]
  | cons c rest ih =>
    intro bp acc
    have hc : escapableChar c = true := h c (List.mem_cons_self ..)
    have hrest : escapable rest := fun x hx => h x (List.mem_cons_of_mem _ hx)
    have hnz : ¬ c = '\x00' := escapableChar_ne_nul hc
    unfold append_string_slow
    rw [if_neg hnz]
    by_cases h49 : xmlFriendlyCode c.toNat = 49
    · rw [if_pos h49]
      have hch : escapeChar c = [c] := by
        simp [escapeChar, escEntity_none_of_safe h49]
      by_cases hfull : 255 ≤ bp.length
      · rw [if_pos hfull, ih hrest [c] (acc ++ bp)]
        simp [escapeAll, hch]
      · rw [if_neg hfull, ih hrest (bp ++ [c]) acc]
        simp [escapeAll, hch]
    · rw [if_neg h49]
      have hsome : (escEntity c).isSome = true := by
        unfold escapableChar at hc
        rcases Bool.or_eq_true_iff.mp hc with h1 | h2
        · exact absurd (of_decide_eq_true h1) h49
        · exact h2
      obtain ⟨ent, hent⟩ := Option.isSome_iff_exists.mp hsome
      rw [hent]
      have hch : escapeChar c = ent := by simp [escapeChar, hent]
      show append_string_slow rest [] (acc ++ bp ++ ent) = _
      rw [ih hrest [] (acc ++ bp ++ ent)]
      simp [escapeAll, hch]

/-- Escaping, as implemented: on input free of illegal bytes, `append_string`
succeeds and appends exactly the byte-wise entity substitution. -/
theorem append_string_eq (acc s : List Char) (h : escapable s) :
    append_string acc s = (none, acc ++ escapeAll s) := by
  unfold append_string
  by_cases hlen : s.length = xml_str_len s
  · rw [if_pos hlen]
    have hs := fastpath_only_empty h hlen
    subst hs
    simp [escapeAll]
  · rw [if_neg hlen, append_string_slow_eq s h [] acc]
    simp

theorem escapeAll_of_allSafe {s : List Char} (h : allSafe s) : escapeAll s = s := by
  induction s with
  | nil => rfl
  | cons c rest ih =>
    have hc := h c (List.mem_cons_self ..)
    simp only [escapeAll, escapeChar, escEntity_none_of_safe hc]
    rw [ih (fun x hx => h x (List.mem_cons_of_mem _ hx))]
    rfl

theorem escapable_of_allSafe {s : List Char} (h : allSafe s) : escapable s := by
  intro c hc
  unfold escapableChar
  rw [h c hc]
  simp

theorem unescape_cons_of_ne {c : Char} (h : ¬ c = '&') (t : List Char) :
    unescapeXml (c :: t) = c :: unescapeXml t := by
  conv_lhs => rw [unescapeXml.eq_def]
  split
  · simp_all
  · simp_all
  · rename_i hne heq
    injection heq with h1 h2
    subst h1; subst h2
    rfl

theorem amp_ne_of_safe {c : Char} (h : xmlFriendlyCode c.toNat = 49) : ¬ c = '&' := by
  intro hc; subst hc; exact absurd h (by decide)

/-- Reversal of a single escaped byte followed by anything already unescaping
correctly. -/
theorem unescape_escapeChar (c : Char) (hc : escapableChar c = true) (t : List Char) :
    unescapeXml (escapeChar c ++ t) = c :: unescapeXml t := by
  by_cases h49 : xmlFriendlyCode c.toNat = 49
  · have : escapeChar c = [c] := by simp [escapeChar, escEntity_none_of_safe h49]
    rw [this]
    exact unescape_cons_of_ne (amp_ne_of_safe h49) t
  · have hsome : (escEntity c).isSome = true := by
      unfold escapableChar at hc
      rcases Bool.or_eq_true_iff.mp hc with h1 | h2
      · exact absurd (of_decide_eq_true h1) h49
      · exact h2
    unfold escEntity at hsome
    split_ifs at hsome with g1 g2 g3 g4 g5
    · subst g1; simp [escapeChar, escEntity]; rfl
    · subst g2; simp [escapeChar, escEntity]; rfl
    · subst g3; simp [escapeChar, escEntity]; rfl
    · subst g4; simp [escapeChar, escEntity]; rfl
    · subst g5; simp [escapeChar, escEntity]; rfl
    · simp at hsome

theorem unescape_escapeAll {s : List Char} (h : escapable s) :
    unescapeXml (escapeAll s) = s := by
  induction s with
  | nil => rfl
  | cons c rest ih =>
    simp only [escapeAll]
    rw [unescape_escapeChar c (h c (List.mem_cons_self ..)),
        ih (fun x hx => h x (List.mem_cons_of_mem _ hx))]

theorem append_indent_depth (b : BState) : (append_indent b).depth = b.depth := by
  unfold append_indent; split_ifs <;> rfl

theorem pop_depth (b : BState) (h : 0 ≤ b.depth) : (pop b).2.depth = b.depth - 1 := by
  simp only [pop, if_neg (show ¬ b.depth < 0 by omega)]
  split_ifs <;> simp [append_indent_depth]

theorem runOps_append (xs ys : List Op) (b : BState) :
    runOps (xs ++ ys) b =
      match runOps xs b with
      | (none, b') => runOps ys b'
      | (some e, b') => (some e, b') := by
  induction xs generalizing b with
  | nil => simp [runOps]
  | cons op rest ih =>
    simp only [List.cons_append, runOps]
    cases h : applyOp b op with
    | mk err b' =>
      cases err with
      | none => exact ih b'
      | some e => rfl

/-! Characterizations of the builder's step functions. -/

theorem append_indent_eq (b : BState) :
    append_indent b = { b with out := appIndentP b.indent (b.depth + 1).toNat b.out } := by
  cases b
  unfold append_indent appIndentP
  split_ifs <;> rfl

theorem stack_ne_nil_of_wf {b : BState} (hwf : wfB b) (h0 : 0 ≤ b.depth) :
    b.stack ≠ [] := by
  obtain ⟨hd, hl⟩ := hwf
  intro hnil
  rw [hnil] at hl
  simp only [List.length_nil] at hl
  omega

theorem depth_eq_neg_one_of_wf {b : BState} (hwf : wfB b) (h0 : ¬ 0 ≤ b.depth) :
    b.depth = -1 ∧ b.stack = [] := by
  obtain ⟨hd, hl⟩ := hwf
  have hdepth : b.depth = -1 := by omega
  refine ⟨hdepth, ?_⟩
  rw [hdepth] at hl
  simp only [Int.toNat_zero, neg_add_cancel] at hl
  exact List.length_eq_zero.mp (by omega)

theorem i_am_a_child_eq (b : BState) (fl : Bool) (hwf : wfB b) :
    i_am_a_child b fl = { b with out := b.out ++ gtB b, stack := markTopF b.stack fl } := by
  by_cases h0 : 0 ≤ b.depth
  · have hne := stack_ne_nil_of_wf hwf h0
    cases hst : b.stack with
    | nil => exact absurd hst hne
    | cons e r =>
      obtain ⟨out, fd, hf, fc, ind, dep, st⟩ := b
      obtain ⟨nm, ln, ch, ntc⟩ := e
      subst hst
      cases ch <;> cases fl <;> simp_all [i_am_a_child, gtB, markTopF]
  · obtain ⟨hdepth, hstack⟩ := depth_eq_neg_one_of_wf hwf h0
    obtain ⟨out, fd, hf, fc, ind, dep, st⟩ := b
    subst hstack
    simp_all [i_am_a_child, gtB, markTopF]

theorem append_attr_eq (out k v : List Char) (h : escapable k) :
    append_attr out k v
      = (none, out ++ ' ' :: (escapeAll k ++ '=' :: '"' :: (v ++ ['"']))) := by
  simp only [append_attr, append_string_eq _ k h]
  simp

theorem appendAttrs_eq (a : List (List Char × List Char)) :
    ∀ out, (∀ kv ∈ a, escapable kv.1) →
      appendAttrs out a = (none, out ++ attrBytes a) := by
  induction a with
  | nil => intro out h; simp [appendAttrs, attrBytes]
  | cons kv rest ih =>
    intro out h
    obtain ⟨k, v⟩ := kv
    have h1 : escapable k := h (k, v) (List.mem_cons_self ..)
    have h2 : ∀ kv ∈ rest, escapable kv.1 := fun x hx => h x (List.mem_cons_of_mem _ hx)
    simp only [appendAttrs, append_attr_eq out k v h1]
    rw [ih _ h2]
    simp [attrBytes]

theorem builder_text_ok (b : BState) (s : List Char) (hwf : wfB b) (hs : escapable s) :
    builder_text b s
      = (none, { b with out := b.out ++ gtB b ++ escapeAll s, stack := markTopF b.stack true }) := by
  unfold builder_text
  rw [i_am_a_child_eq b true hwf]
  simp only [append_string_eq _ s hs]

theorem builder_element_ok (b : BState) (n : List Char)
    (a : List (List Char × List Char)) (hwf : wfB b)
    (ha : ∀ kv ∈ a, escapable kv.1) (hroom : b.depth + 1 < 128) :
    builder_element b n a
      = (none, { b with depth := b.depth + 1, stack := elemFrame n :: markTopF b.stack false, out := appIndentP b.indent (b.depth + 1).toNat (b.out ++ gtB b) ++ '<' :: (n ++ attrBytes a) }) := by
  unfold builder_element
  simp only [i_am_a_child_eq b false hwf, append_indent_eq]
  rw [if_neg (show ¬ (128 : Int) ≤ b.depth + 1 by omega)]
  simp only [appendAttrs_eq a _ ha]
  simp [elemFrame, List.append_assoc]

theorem pop_nochild (b : BState) (h0 : 0 ≤ b.depth)
    (hc : (b.stack.headD default).has_child = false) :
    pop b = (none, { b with depth := b.depth - 1, stack := b.stack.tail, out := b.out ++ ['/', '>'] }) := by
  simp only [pop, if_neg (show ¬ b.depth < 0 by omega), hc]
  simp

theorem pop_child (b : BState) (e : Element) (he : b.stack.headD default = e)
    (h0 : 0 ≤ b.depth) (hc : e.has_child = true) :
    pop b = (none, { b with depth := b.depth - 1, stack := b.stack.tail, out := (if e.non_text_child then appIndentP b.indent b.depth.toNat b.out else b.out) ++ '<' :: '/' :: (e.name.take e.len ++ ['>']) }) := by
  simp only [pop, if_neg (show ¬ b.depth < 0 by omega), he, hc]
  cases hn : e.non_text_child <;>
    simp [hn, append_indent_eq, appIndentP]

theorem markTopF_length (st : List Element) (fl : Bool) :
    (markTopF st fl).length = st.length := by
  cases st <;> simp [markTopF]

theorem markTopForest_cons (st : List Element) (t : XTree) (ts : List XTree) :
    markTopForest (markTopF st (isTextT t)) ts = markTopForest st (t :: ts) := by
  cases st <;> cases ts <;>
    simp [markTopF, markTopForest, hasElem, List.any_cons, List.any_nil, Bool.or_assoc]

theorem gtB_after_mark (b : BState) (hwf : wfB b) (o : List Char) (fl : Bool) :
    gtB { b with out := o, stack := markTopF b.stack fl } = [] := by
  by_cases h0 : 0 ≤ b.depth
  · have hne := stack_ne_nil_of_wf hwf h0
    cases hst : b.stack with
    | nil => exact absurd hst hne
    | cons e r => simp [gtB, markTopF, hst]
  · simp [gtB, h0]

theorem gtB_push (b : BState) (hd : -1 ≤ b.depth) (n : List Char) (st : List Element)
    (o : List Char) :
    gtB { b with depth := b.depth + 1, stack := elemFrame n :: st, out := o } = ['>'] := by
  simp [gtB, elemFrame]
  omega

mutual
/-- Running the call sequence of one well-formed tree from any well-formed
state succeeds and appends exactly the recursive serialization (plus the
parent's pending `>`), marking the parent frame. -/
theorem runTree_eq (t : XTree) : ∀ b : BState, wfB b → goodTree t →
    (b.depth + 1).toNat + treeDepth t ≤ 128 →
    runOps (flattenTree t) b
      = (none, { b with out := emitTree b.indent (b.depth + 1).toNat (b.out ++ gtB b) t, stack := markTopF b.stack (isTextT t) }) := by
  cases t with
  | txt s =>
    intro b hwf hg hroom
    simp only [flattenTree, runOps, applyOp]
    rw [builder_text_ok b s hwf hg]
    simp [emitTree, isTextT, List.append_assoc]
  | elem n a cs =>
    intro b hwf hg hroom
    obtain ⟨ha, hcs⟩ : (∀ kv ∈ a, escapable kv.1) ∧ goodForest cs := hg
    have hd : -1 ≤ b.depth := hwf.1
    have hroom1 : b.depth + 1 < 128 := by
      simp only [treeDepth] at hroom
      omega
    simp only [flattenTree, runOps, applyOp]
    rw [builder_element_ok b n a hwf ha hroom1]
    dsimp only
    rw [runOps_append]
    have hwfE : wfB { b with depth := b.depth + 1, stack := elemFrame n :: markTopF b.stack false, out := appIndentP b.indent (b.depth + 1).toNat (b.out ++ gtB b) ++ '<' :: (n ++ attrBytes a) } := by
      constructor
      · simp only
        omega
      · simp only [List.length_cons, markTopF_length]
        rw [hwf.2]
        omega
    have hroomE : ({ b with depth := b.depth + 1, stack := elemFrame n :: markTopF b.stack false, out := appIndentP b.indent (b.depth + 1).toNat (b.out ++ gtB b) ++ '<' :: (n ++ attrBytes a) : BState }.depth + 1).toNat + forestDepth cs ≤ 128 := by
      simp only [treeDepth] at hroom
      simp only
      omega
    rw [runForest_eq cs _ hwfE hcs hroomE]
    dsimp only
    cases cs with
    | nil =>
      simp only [runOps, applyOp]
      rw [pop_nochild _ (show (0 : Int) ≤ b.depth + 1 by omega) (by rfl)]
      simp only [gtBF, markTopForest, emitForest, emitTree]
      simp [isTextT, List.append_assoc]
    | cons c cs' =>
      simp only [runOps, applyOp, gtBF]
      rw [gtB_push b hd n _ _]
      rw [pop_child _ { elemFrame n with has_child := true, non_text_child := (elemFrame n).non_text_child || hasElem (c :: cs') } (by rfl) (show (0 : Int) ≤ b.depth + 1 by omega) (by rfl)]
      simp only [markTopForest, emitForest, emitTree, elemFrame]
      have h1 : (b.depth + 1 + 1).toNat = (b.depth + 1).toNat + 1 := by omega
      simp [isTextT, List.append_assoc, h1, List.take_length]

/-- Running the call sequence of a well-formed forest from any well-formed
state succeeds, appends the serializations of its trees in order (with the
parent's pending `>` before the first), and marks the parent frame. -/
theorem runForest_eq (cs : List XTree) : ∀ b : BState, wfB b → goodForest cs →
    (b.depth + 1).toNat + forestDepth cs ≤ 128 →
    runOps (flattenForest cs) b
      = (none, { b with out := emitForest b.indent (b.depth + 1).toNat (b.out ++ gtBF b cs) cs, stack := markTopForest b.stack cs }) := by
  cases cs with
  | nil =>
    intro b hwf hg hroom
    simp [flattenForest, runOps, emitForest, gtBF, markTopForest]
  | cons t ts =>
    intro b hwf hg hroom
    obtain ⟨hgt, hgts⟩ : goodTree t ∧ goodForest ts := hg
    have hr1 : (b.depth + 1).toNat + treeDepth t ≤ 128 := by
      simp only [forestDepth] at hroom
      omega
    simp only [flattenForest]
    rw [runOps_append]
    rw [runTree_eq t b hwf hgt hr1]
    dsimp only
    have hwf1 : wfB { b with out := emitTree b.indent (b.depth + 1).toNat (b.out ++ gtB b) t, stack := markTopF b.stack (isTextT t) } := by
      constructor
      · exact hwf.1
      · simp only [markTopF_length]
        exact hwf.2
    have hr2 : ({ b with out := emitTree b.indent (b.depth + 1).toNat (b.out ++ gtB b) t, stack := markTopF b.stack (isTextT t) : BState }.depth + 1).toNat + forestDepth ts ≤ 128 := by
      simp only [forestDepth] at hroom
      simp only
      omega
    rw [runForest_eq ts _ hwf1 hgts hr2]
    dsimp only
    cases ts with
    | nil =>
      simp only [gtBF, emitForest, markTopForest_cons]
      simp
    | cons t2 ts2 =>
      simp only [gtBF]
      rw [gtB_after_mark b hwf _ (isTextT t)]
      simp only [emitForest, markTopForest_cons]
      simp
end

/-! Depth bounds along a run. -/

theorem i_am_a_child_depth (b : BState) (fl : Bool) : (i_am_a_child b fl).depth = b.depth := by
  unfold i_am_a_child
  split
  · split <;> rfl
  · rfl

theorem builder_element_depth (b : BState) (n : List Char)
    (a : List (List Char × List Char)) :
    (builder_element b n a).2.depth = b.depth + 1 := by
  unfold builder_element
  dsimp only
  split
  · simp [append_indent_depth, i_am_a_child_depth]
  · simp [append_indent_depth, i_am_a_child_depth]

theorem builder_element_ok_bound (b : BState) (n : List Char)
    (a : List (List Char × List Char)) (h : (builder_element b n a).1 = none) :
    b.depth + 1 < 128 := by
  unfold builder_element at h
  by_cases hc : (128 : Int) ≤
      ({ append_indent (i_am_a_child b false) with depth := (append_indent (i_am_a_child b false)).depth + 1 : BState }).depth
  · rw [if_pos hc] at h
    simp at h
  · simp only [append_indent_depth, i_am_a_child_depth] at hc
    omega

theorem popAllF_depth (n : Nat) : ∀ b : BState, -1 ≤ b.depth →
    -1 ≤ (popAllF n b).depth ∧ (popAllF n b).depth ≤ b.depth := by
  induction n with
  | zero => intro b h; simp [popAllF]; omega
  | succ m ih =>
    intro b h
    unfold popAllF
    split
    · rename_i h0
      have hd := pop_depth b h0
      have := ih (pop b).2 (by omega)
      omega
    · omega

theorem bclose_depth (b : BState) (h : -1 ≤ b.depth) :
    -1 ≤ (bclose b).depth ∧ (bclose b).depth ≤ b.depth := by
  unfold bclose popAll
  have := popAllF_depth (b.depth + 1).toNat b h
  dsimp only
  split <;> simp <;> omega

theorem applyOp_ok_depth (op : Op) (b : BState) (h1 : -1 ≤ b.depth)
    (h2 : b.depth < 128) (hok : (applyOp b op).1 = none) :
    -1 ≤ (applyOp b op).2.depth ∧ (applyOp b op).2.depth < 128 := by
  cases op with
  | element n a =>
    simp only [applyOp] at hok ⊢
    rw [builder_element_depth]
    have := builder_element_ok_bound b n a hok
    omega
  | text s =>
    simp only [applyOp, builder_text]
    simp only [i_am_a_child_depth]
    omega
  | comment s => simp [applyOp, builder_comment, append_indent_depth, i_am_a_child_depth]; omega
  | cdata s => simp [applyOp, builder_cdata, append_indent_depth, i_am_a_child_depth]; omega
  | doctype s => simp [applyOp, builder_doctype, append_indent_depth, i_am_a_child_depth]; omega
  | raw s => simp [applyOp, builder_raw, i_am_a_child_depth]; omega
  | pop =>
    simp only [applyOp] at hok ⊢
    by_cases h0 : b.depth < 0
    · unfold pop at hok
      rw [if_pos h0] at hok
      simp at hok
    · rw [pop_depth b (by omega)]
      omega
  | close =>
    simp only [applyOp]
    have := bclose_depth b h1
    omega

theorem runOps_ok_depth (ops : List Op) : ∀ b : BState, -1 ≤ b.depth → b.depth < 128 →
    (runOps ops b).1 = none →
    -1 ≤ (runOps ops b).2.depth ∧ (runOps ops b).2.depth < 128 := by
  induction ops with
  | nil => intro b h1 h2 _; simpa [runOps] using And.intro h1 h2
  | cons op rest ih =>
    intro b h1 h2 hok
    simp only [runOps] at hok ⊢
    cases hr : applyOp b op with
    | mk err b' =>
      cases err with
      | none =>
        rw [hr] at hok
        dsimp only at hok ⊢
        have hstep := applyOp_ok_depth op b h1 h2 (by rw [hr])
        rw [hr] at hstep
        dsimp only at hstep
        exact ih b' hstep.1 hstep.2 hok
      | some e =>
        rw [hr] at hok
        simp at hok

theorem runOps_prefix_ok {xs ys : List Op} {b : BState}
    (h : (runOps (xs ++ ys) b).1 = none) : (runOps xs b).1 = none := by
  rw [runOps_append] at h
  cases hr : runOps xs b with
  | mk err b' =>
    cases err with
    | none => rfl
    | some e => rw [hr] at h; simp at h

/-! Scanner lemmas: the scanner skips character data and consumes the three
tag shapes the builder emits. -/

theorem takeWhile_all {p : Char → Bool} : ∀ xs : List Char, (∀ c ∈ xs, p c = true) →
    xs.takeWhile p = xs := by
  intro xs
  induction xs with
  | nil => intro _; rfl
  | cons c rest ih =>
    intro h
    simp [List.takeWhile_cons, h c (List.mem_cons_self ..),
      ih (fun x hx => h x (List.mem_cons_of_mem _ hx))]

theorem takeWhile_append_stop {p : Char → Bool} : ∀ (xs : List Char) (y : Char)
    (ys : List Char), (∀ c ∈ xs, p c = true) → p y = false →
    (xs ++ y :: ys).takeWhile p = xs := by
  intro xs
  induction xs with
  | nil => intro y ys _ hy; simp [List.takeWhile_cons, hy]
  | cons c rest ih =>
    intro y ys h hy
    simp [List.cons_append, List.takeWhile_cons, h c (List.mem_cons_self ..),
      ih y ys (fun x hx => h x (List.mem_cons_of_mem _ hx)) hy]

theorem escapeChar_no_angle (c : Char) (x : Char) (hx : x ∈ escapeChar c) :
    x ≠ '<' ∧ x ≠ '>' := by
  unfold escapeChar escEntity at hx
  split_ifs at hx with h1 h2 h3 h4 h5
  · dsimp only at hx
    constructor <;> (rintro rfl; exact absurd hx (by decide))
  · dsimp only at hx
    constructor <;> (rintro rfl; exact absurd hx (by decide))
  · dsimp only at hx
    constructor <;> (rintro rfl; exact absurd hx (by decide))
  · dsimp only at hx
    constructor <;> (rintro rfl; exact absurd hx (by decide))
  · dsimp only at hx
    constructor <;> (rintro rfl; exact absurd hx (by decide))
  · dsimp only at hx
    simp only [List.mem_singleton] at hx
    subst hx
    exact ⟨h4, h5⟩

theorem escapeAll_no_angle {s : List Char} :
    ∀ x ∈ escapeAll s, x ≠ '<' ∧ x ≠ '>' := by
  induction s with
  | nil => simp [escapeAll]
  | cons c rest ih =>
    intro x hx
    simp only [escapeAll, List.mem_append] at hx
    rcases hx with hx | hx
    · exact escapeChar_no_angle c x hx
    · exact ih x hx

theorem mem_indent_spaces {c : Char} (h : c ∈ indent_spaces) : c = '\n' ∨ c = ' ' := by
  unfold indent_spaces at h
  rcases List.mem_cons.mp h with h | h
  · exact Or.inl h
  · exact Or.inr (List.eq_of_mem_replicate h)

theorem appIndentP_ext (ind m : Nat) (out : List Char) :
    ∃ δ, appIndentP ind m out = out ++ δ ∧ ∀ c ∈ δ, c ≠ '<' := by
  unfold appIndentP
  split_ifs
  · exact ⟨[], by simp, by simp⟩
  · exact ⟨[], by simp, by simp⟩
  · refine ⟨_, rfl, ?_⟩
    intro c hc
    have hmem : c ∈ indent_spaces := List.take_subset _ _ hc
    rcases mem_indent_spaces hmem with h | h <;> (subst h; decide)

theorem attrBytes_no_angle (a : List (List Char × List Char))
    (hk : ∀ kv ∈ a, escapable kv.1) (hv : ∀ kv ∈ a, valueOk kv.2) :
    ∀ c ∈ attrBytes a, c ≠ '<' ∧ c ≠ '>' := by
  induction a with
  | nil => simp [attrBytes]
  | cons kv rest ih =>
    obtain ⟨k, v⟩ := kv
    intro c hc
    have heq : attrBytes ((k, v) :: rest)
        = [' '] ++ escapeAll k ++ ['=', '"'] ++ v ++ ['"'] ++ attrBytes rest := by
      simp [attrBytes]
    rw [heq] at hc
    simp only [List.mem_append] at hc
    rcases hc with ((((h | h) | h) | h) | h) | h
    · simp only [List.mem_singleton] at h
      subst h
      constructor <;> decide
    · exact escapeAll_no_angle c h
    · rcases List.mem_cons.mp h with rfl | h2
      · constructor <;> decide
      · simp only [List.mem_singleton] at h2
        subst h2
        constructor <;> decide
    · exact hv (k, v) (List.mem_cons_self ..) c h
    · simp only [List.mem_singleton] at h
      subst h
      constructor <;> decide
    · exact ih (fun x hx => hk x (List.mem_cons_of_mem _ hx))
             (fun x hx => hv x (List.mem_cons_of_mem _ hx)) c h

theorem attrBytes_last (a : List (List Char × List Char)) (h : a ≠ []) :
    (attrBytes a).getLast? = some '"' := by
  induction a with
  | nil => exact absurd rfl h
  | cons kv rest ih =>
    obtain ⟨k, v⟩ := kv
    by_cases hr : rest = []
    · subst hr
      simp only [attrBytes, List.append_nil]
      rw [show ' ' :: (escapeAll k ++ '=' :: '"' :: (v ++ ['"'])) = (' ' :: (escapeAll k ++ '=' :: '"' :: v)) ++ ['"'] by simp]
      exact List.getLast?_concat _
    · simp only [attrBytes]
      rw [show (' ' :: (escapeAll k ++ '=' :: '"' :: (v ++ ['"'])) ++ attrBytes rest : List Char) = (' ' :: (escapeAll k ++ '=' :: '"' :: (v ++ ['"']))) ++ attrBytes rest by simp]
      rw [List.getLast?_append, ih hr]
      rfl

theorem tagName_append_attrs (n : List Char) (a : List (List Char × List Char))
    (hn : ∀ c ∈ n, c ≠ ' ') : tagName (n ++ attrBytes a) = n := by
  cases a with
  | nil =>
    simp only [attrBytes, List.append_nil, tagName]
    exact takeWhile_all n (by intro c hc; simpa using hn c hc)
  | cons kv rest =>
    obtain ⟨k, v⟩ := kv
    simp only [attrBytes, tagName]
    exact takeWhile_append_stop n ' ' _ (by intro c hc; simpa using hn c hc) (by decide)

theorem scanTags_skip : ∀ (xs : List Char), (∀ c ∈ xs, c ≠ '<') → ∀ (r : List Char)
    (st : List (List Char)), scanTags (xs ++ r) st = scanTags r st := by
  intro xs
  induction xs with
  | nil => intro _ r st; rfl
  | cons c xs' ih =>
    intro h r st
    have hc : ¬ c = '<' := h c (List.mem_cons_self ..)
    rw [List.cons_append, scanTags]
    rw [if_neg hc]
    exact ih (fun x hx => h x (List.mem_cons_of_mem _ hx)) r st

theorem scanTags_close (nm : List Char) (r : List Char) (st : List (List Char))
    (hno : ∀ c ∈ nm, c ≠ '<' ∧ c ≠ '>') :
    scanTags ('<' :: '/' :: (nm ++ '>' :: r)) (nm :: st) = scanTags r st := by
  have hshape : ('/' :: (nm ++ '>' :: r)) = ('/' :: nm) ++ '>' :: r := by simp
  have htake : ('/' :: (nm ++ '>' :: r)).takeWhile (fun x => x ≠ '>') = '/' :: nm := by
    rw [hshape]
    refine takeWhile_append_stop ('/' :: nm) '>' r ?_ (by decide)
    intro c hc
    rcases List.mem_cons.mp hc with rfl | hc
    · decide
    · simpa using (hno c hc).2
  have hdrop : ('/' :: (nm ++ '>' :: r)).drop ('/' :: nm).length = '>' :: r := by
    rw [hshape]
    exact List.drop_left _ _
  have hany : (('/' :: nm).any fun x => x = '<') = false := by
    rw [List.any_eq_false]
    intro x hx
    rcases List.mem_cons.mp hx with rfl | hx
    · decide
    · simp [(hno x hx).1]
  rw [scanTags, if_pos rfl]
  simp only [htake, hdrop]
  rw [if_neg (by simp), if_neg (by rw [hany]; decide)]
  simp

theorem scanTags_open (c0 : Char) (cont : List Char) (r : List Char)
    (st : List (List Char)) (hno : ∀ c ∈ c0 :: cont, c ≠ '<' ∧ c ≠ '>')
    (hc0 : c0 ≠ '/') (hlast : (c0 :: cont).getLast? ≠ some '/') :
    scanTags ('<' :: ((c0 :: cont) ++ '>' :: r)) st
      = scanTags r (tagName (c0 :: cont) :: st) := by
  have htake : ((c0 :: cont) ++ '>' :: r).takeWhile (fun x => x ≠ '>') = c0 :: cont := by
    refine takeWhile_append_stop (c0 :: cont) '>' r ?_ (by decide)
    intro c hc
    simpa using (hno c hc).2
  have hdrop : ((c0 :: cont) ++ '>' :: r).drop (c0 :: cont).length = '>' :: r :=
    List.drop_left _ _
  have hany : ((c0 :: cont).any fun x => x = '<') = false := by
    rw [List.any_eq_false]
    intro x hx
    simp [(hno x hx).1]
  rw [scanTags, if_pos rfl]
  simp only [htake, hdrop]
  rw [if_neg (by simp), if_neg (by rw [hany]; decide)]
  split
  · rename_i nm heq
    injection heq with h1 h2
    exact absurd h1 hc0
  · rw [if_neg hlast]
    rfl

theorem scanTags_selfclose (c0 : Char) (cont : List Char) (r : List Char)
    (st : List (List Char)) (hno : ∀ c ∈ c0 :: cont, c ≠ '<' ∧ c ≠ '>')
    (hc0 : c0 ≠ '/') :
    scanTags ('<' :: (((c0 :: cont) ++ ['/']) ++ '>' :: r)) st = scanTags r st := by
  have hsat : ∀ c ∈ (c0 :: cont) ++ ['/'], (fun x => decide (x ≠ '>')) c = true := by
    intro c hc
    rcases List.mem_append.mp hc with hc | hc
    · simpa using (hno c hc).2
    · simp only [List.mem_singleton] at hc
      subst hc
      decide
  have htake : (((c0 :: cont) ++ ['/']) ++ '>' :: r).takeWhile (fun x => x ≠ '>')
      = (c0 :: cont) ++ ['/'] :=
    takeWhile_append_stop _ '>' r hsat (by decide)
  have hdrop : (((c0 :: cont) ++ ['/']) ++ '>' :: r).drop ((c0 :: cont) ++ ['/']).length
      = '>' :: r := List.drop_left _ _
  have hany : (((c0 :: cont) ++ ['/']).any fun x => x = '<') = false := by
    rw [List.any_eq_false]
    intro x hx
    rcases List.mem_append.mp hx with hx | hx
    · simp [(hno x hx).1]
    · simp only [List.mem_singleton] at hx
      subst hx
      decide
  rw [scanTags, if_pos rfl]
  simp only [htake, hdrop]
  rw [if_neg (by simp), if_neg (by rw [hany]; decide)]
  have hcons : (c0 :: cont) ++ ['/'] = c0 :: (cont ++ ['/']) := by simp
  rw [hcons]
  split
  · rename_i nm heq
    injection heq with h1 h2
    exact absurd h1 hc0
  · rw [if_pos (by rw [← hcons]; exact List.getLast?_concat _)]
    rfl

theorem getLast?_ne_of_forall {l : List Char} {p : Char} (h : ∀ c ∈ l, c ≠ p) :
    l.getLast? ≠ some p := by
  induction l with
  | nil => simp
  | cons a l ih =>
    cases l with
    | nil =>
      simp only [List.getLast?_singleton]
      intro hc
      exact h a (List.mem_cons_self ..) (by injection hc)
    | cons b l2 =>
      rw [List.getLast?_cons_cons]
      exact ih (fun c hc => h c (List.mem_cons_of_mem _ hc))

theorem content_last_ne (n : List Char) (a : List (List Char × List Char))
    (hn : ∀ c ∈ n, c ≠ '/') : (n ++ attrBytes a).getLast? ≠ some '/' := by
  cases a with
  | nil =>
    simp only [attrBytes, List.append_nil]
    exact getLast?_ne_of_forall hn
  | cons kv rest =>
    rw [List.getLast?_append, attrBytes_last (kv :: rest) (by simp)]
    intro hc
    simp at hc

mutual
/-- Scan invariance for one tree's emitted bytes: the bytes of a tag-safe
tree leave any scanner stack unchanged, i.e. all tags a tree emits are
properly matched and nested among themselves. -/
theorem scanTree_inv (t : XTree) : tagSafeTree t → goodTree t →
    ∀ (ind d : Nat) (out : List Char),
    ∃ δ, emitTree ind d out t = out ++ δ ∧
      ∀ (r : List Char) (st : List (List Char)), scanTags (δ ++ r) st = scanTags r st := by
  cases t with
  | txt s =>
    intro _ hg ind d out
    refine ⟨escapeAll s, rfl, ?_⟩
    intro r st
    exact scanTags_skip (escapeAll s) (fun c hc => (escapeAll_no_angle c hc).1) r st
  | elem n a cs =>
    intro hts hg ind d out
    obtain ⟨hn, hv, htscs⟩ : nameOk n ∧ (∀ kv ∈ a, valueOk kv.2) ∧ tagSafeForest cs := hts
    obtain ⟨hk, hgcs⟩ : (∀ kv ∈ a, escapable kv.1) ∧ goodForest cs := hg
    obtain ⟨hne, hnol⟩ := hn
    cases n with
    | nil => exact absurd rfl hne
    | cons c0 n' =>
    obtain ⟨δ0, hδ0, hδ0no⟩ := appIndentP_ext ind d out
    have hcontent : (c0 :: n') ++ attrBytes a = c0 :: (n' ++ attrBytes a) := by simp
    have hnoC : ∀ c ∈ c0 :: (n' ++ attrBytes a), c ≠ '<' ∧ c ≠ '>' := by
      intro c hc
      rw [← hcontent] at hc
      rcases List.mem_append.mp hc with hc | hc
      · exact ⟨(hnol c hc).1, (hnol c hc).2.1⟩
      · exact attrBytes_no_angle a hk hv c hc
    have hc0 : c0 ≠ '/' := (hnol c0 (List.mem_cons_self ..)).2.2.1
    cases cs with
    | nil =>
      refine ⟨δ0 ++ ('<' :: (((c0 :: n') ++ attrBytes a) ++ ['/', '>'])), ?_, ?_⟩
      · simp [emitTree, hδ0, List.append_assoc]
      · intro r st
        rw [List.append_assoc, scanTags_skip δ0 hδ0no]
        rw [show ('<' :: (((c0 :: n') ++ attrBytes a) ++ ['/', '>'])) ++ r
             = '<' :: (((c0 :: (n' ++ attrBytes a)) ++ ['/']) ++ '>' :: r) by simp]
        exact scanTags_selfclose c0 (n' ++ attrBytes a) r st hnoC hc0
    | cons c1 cs1 =>
      obtain ⟨δc, hδc, hδcscan⟩ := scanForest_inv (c1 :: cs1) htscs hgcs ind (d + 1)
        ((appIndentP ind d out ++ '<' :: ((c0 :: n') ++ attrBytes a)) ++ ['>'])
      obtain ⟨δ1, hδ1, hδ1no⟩ :
          ∃ δ1, (if hasElem (c1 :: cs1) then
                   appIndentP ind d (emitForest ind (d + 1)
                     ((appIndentP ind d out ++ '<' :: ((c0 :: n') ++ attrBytes a)) ++ ['>'])
                     (c1 :: cs1))
                 else emitForest ind (d + 1)
                     ((appIndentP ind d out ++ '<' :: ((c0 :: n') ++ attrBytes a)) ++ ['>'])
                     (c1 :: cs1))
            = emitForest ind (d + 1)
                ((appIndentP ind d out ++ '<' :: ((c0 :: n') ++ attrBytes a)) ++ ['>'])
                (c1 :: cs1) ++ δ1 ∧ ∀ c ∈ δ1, c ≠ '<' := by
        by_cases hHE : hasElem (c1 :: cs1) = true
        · rw [if_pos hHE]
          exact appIndentP_ext ind d _
        · rw [if_neg hHE]
          exact ⟨[], by simp, by simp⟩
      refine ⟨δ0 ++ ('<' :: ((c0 :: n') ++ attrBytes a)) ++ ['>'] ++ δc ++ δ1
        ++ ('<' :: '/' :: ((c0 :: n') ++ ['>'])), ?_, ?_⟩
      · show emitTree ind d out (XTree.elem (c0 :: n') a (c1 :: cs1)) = _
        simp only [emitTree]
        rw [hδ1, hδc, hδ0]
        simp [List.append_assoc]
      · intro r st
        rw [show (δ0 ++ ('<' :: ((c0 :: n') ++ attrBytes a)) ++ ['>'] ++ δc ++ δ1
              ++ ('<' :: '/' :: ((c0 :: n') ++ ['>']))) ++ r
            = δ0 ++ ('<' :: ((c0 :: (n' ++ attrBytes a)) ++ '>' ::
                (δc ++ (δ1 ++ ('<' :: '/' :: ((c0 :: n') ++ '>' :: r)))))) by simp]
        rw [scanTags_skip δ0 hδ0no]
        have hlast2 : (c0 :: (n' ++ attrBytes a)).getLast? ≠ some '/' := by
          rw [← hcontent]
          exact content_last_ne (c0 :: n') a (fun c hc => (hnol c hc).2.2.1)
        have htag : tagName (c0 :: (n' ++ attrBytes a)) = c0 :: n' := by
          rw [← hcontent]
          exact tagName_append_attrs (c0 :: n') a (fun c hc => (hnol c hc).2.2.2)
        rw [scanTags_open c0 (n' ++ attrBytes a) _ st hnoC hc0 hlast2]
        rw [htag]
        rw [hδcscan]
        rw [scanTags_skip δ1 hδ1no]
        exact scanTags_close (c0 :: n') r st
          (fun c hc => ⟨(hnol c hc).1, (hnol c hc).2.1⟩)

/-- Scan invariance for a forest's emitted bytes. -/
theorem scanForest_inv (cs : List XTree) : tagSafeForest cs → goodForest cs →
    ∀ (ind d : Nat) (out : List Char),
    ∃ δ, emitForest ind d out cs = out ++ δ ∧
      ∀ (r : List Char) (st : List (List Char)), scanTags (δ ++ r) st = scanTags r st := by
  cases cs with
  | nil =>
    intro _ _ ind d out
    exact ⟨[], by simp [emitForest], by intro r st; rfl⟩
  | cons t ts =>
    intro hts hg ind d out
    obtain ⟨ht1, hts2⟩ : tagSafeTree t ∧ tagSafeForest ts := hts
    obtain ⟨hg1, hg2⟩ : goodTree t ∧ goodForest ts := hg
    obtain ⟨δt, hδt, hδtscan⟩ := scanTree_inv t ht1 hg1 ind d out
    obtain ⟨δts, hδts, hδtsscan⟩ := scanForest_inv ts hts2 hg2 ind d (out ++ δt)
    refine ⟨δt ++ δts, ?_, ?_⟩
    · simp only [emitForest]
      rw [hδt, hδts, List.append_assoc]
    · intro r st
      rw [List.append_assoc, hδtscan, hδtsscan]
end

/-! Claim theorems. -/

theorem gtBF_init (ind : Nat) (cs : List XTree) : gtBF (init ind 0) cs = [] := by
  cases cs <;> simp [gtBF, gtB, init]

/-- C1: for every well-formed call sequence (every element open matched by a
pop, encoded as the flattening of a forest of call trees) whose nesting
stays within MAX_DEPTH and whose text payloads and attribute keys escape
cleanly, the run from a fresh memory builder succeeds; the emitted byte
stream equals the recursive tree serialization `emitForest`, in which every
opened tag is terminated by exactly one matching close or self-close and
children are emitted strictly inside their parent (LIFO nesting); for
tag-safe names and attribute values the stream passes the syntactic tag
scanner with an empty final stack; and the builder depth stays below
MAX_DEPTH = 128 after every prefix of the sequence. -/
theorem C1_wellformed_stream (cs : List XTree) (ind : Nat)
    (hg : goodForest cs) (hts : tagSafeForest cs) (hd : forestDepth cs ≤ 128) :
    (runOps (flattenForest cs) (init ind 0)).1 = none ∧
    (runOps (flattenForest cs) (init ind 0)).2.out = emitForest ind 0 [] cs ∧
    wellFormedXml (emitForest ind 0 [] cs) ∧
    (∀ pfx, pfx <+: flattenForest cs →
      -1 ≤ (runOps pfx (init ind 0)).2.depth ∧ (runOps pfx (init ind 0)).2.depth < 128) := by
  have hwf0 : wfB (init ind 0) := by constructor <;> simp [init]
  have hroom : ((init ind 0).depth + 1).toNat + forestDepth cs ≤ 128 := by
    simp only [init]
    omega
  have hrun := runForest_eq cs (init ind 0) hwf0 hg hroom
  refine ⟨?_, ?_, ?_, ?_⟩
  · rw [hrun]
  · rw [hrun]
    cases cs <;> simp [init, gtBF, gtB]
  · obtain ⟨δ, hδ, hscan⟩ := scanForest_inv cs hts hg ind 0 []
    unfold wellFormedXml
    rw [show emitForest ind 0 [] cs = δ by rw [hδ]; simp]
    rw [show δ = δ ++ [] by simp, hscan]
    rw [scanTags]
  · intro pfx hpfx
    obtain ⟨ys, hys⟩ := hpfx
    have hok : (runOps (pfx ++ ys) (init ind 0)).1 = none := by
      rw [hys, hrun]
    have hpok := runOps_prefix_ok hok
    exact runOps_ok_depth pfx (init ind 0) (by simp [init]) (by simp [init]) hpok

/-- C1 witness: a concrete forest (an element `a` containing text `hi`)
satisfies the hypotheses, runs successfully, and its output passes the
scanner. -/
theorem C1_wellformed_stream_witness :
    (runOps (flattenForest [XTree.elem ['a'] [] [XTree.txt ['h', 'i']]]) (init 0 0)).1 = none ∧
    (runOps (flattenForest [XTree.elem ['a'] [] [XTree.txt ['h', 'i']]]) (init 0 0)).2.out
      = emitForest 0 0 [] [XTree.elem ['a'] [] [XTree.txt ['h', 'i']]] ∧
    wellFormedXml (emitForest 0 0 [] [XTree.elem ['a'] [] [XTree.txt ['h', 'i']]]) := by
  have hg : goodForest [XTree.elem ['a'] [] [XTree.txt ['h', 'i']]] :=
    ⟨⟨fun kv hkv => absurd hkv (by simp), (by decide : escapable ['h', 'i']), trivial⟩, trivial⟩
  have hts : tagSafeForest [XTree.elem ['a'] [] [XTree.txt ['h', 'i']]] :=
    ⟨⟨⟨by decide, by decide⟩, fun kv hkv => absurd hkv (by simp), trivial, trivial⟩, trivial⟩
  have h := C1_wellformed_stream [XTree.elem ['a'] [] [XTree.txt ['h', 'i']]] 0 hg hts (by decide)
  exact ⟨h.1, h.2.1, h.2.2.1⟩

/-- C2: `pop` emits the self-closing form `/>` iff the popped frame has
received no child; with a child it emits the expanded close `</name>`,
preceded by an indentation run only when a non-text child was appended;
every child-producing operation funnels through `i_am_a_child`, which marks
the top frame (`builder_text` does so even for empty text); and a fresh
`builder_element` push starts its frame with `has_child = false`. -/
theorem C2_selfclose_iff :
    (∀ b : BState, 0 ≤ b.depth →
      ((pop b).2.out = b.out ++ ['/', '>'] ↔ (b.stack.headD default).has_child = false)) ∧
    (∀ b : BState, 0 ≤ b.depth → (b.stack.headD default).has_child = false →
      pop b = (none, { b with depth := b.depth - 1, stack := b.stack.tail, out := b.out ++ ['/', '>'] })) ∧
    (∀ (b : BState) (e : Element), b.stack.headD default = e → 0 ≤ b.depth → e.has_child = true →
      pop b = (none, { b with depth := b.depth - 1, stack := b.stack.tail, out := (if e.non_text_child then appIndentP b.indent b.depth.toNat b.out else b.out) ++ '<' :: '/' :: (e.name.take e.len ++ ['>']) })) ∧
    (∀ (b : BState) (s : List Char), 0 ≤ b.depth → b.stack ≠ [] →
      ((builder_text b s).2.stack.headD default).has_child = true) ∧
    (∀ (b : BState) (fl : Bool), 0 ≤ b.depth → b.stack ≠ [] →
      ((i_am_a_child b fl).stack.headD default).has_child = true) ∧
    (∀ (b : BState) (n : List Char) (a : List (List Char × List Char)),
      (builder_element b n a).1 = none →
      ((builder_element b n a).2.stack.headD default).has_child = false) := by
  have hmark : ∀ (b : BState) (fl : Bool), 0 ≤ b.depth → b.stack ≠ [] →
      ((i_am_a_child b fl).stack.headD default).has_child = true := by
    intro b fl h0 hne
    cases hst : b.stack with
    | nil => exact absurd hst hne
    | cons e r =>
      simp only [i_am_a_child, if_pos h0, hst]
      cases hc : e.has_child <;> cases fl <;> simp [hc]
  refine ⟨?_, ?_, ?_, ?_, hmark, ?_⟩
  · intro b h0
    constructor
    · intro heq
      by_contra hcf
      have hc : (b.stack.headD default).has_child = true := by
        cases h : (b.stack.headD default).has_child
        · exact absurd h hcf
        · rfl
      rw [pop_child b _ rfl h0 hc] at heq
      simp only at heq
      obtain ⟨δ, hδ, _⟩ := appIndentP_ext b.indent b.depth.toNat b.out
      cases hnt : (b.stack.headD default).non_text_child
      · rw [hnt] at heq
        simp only [Bool.false_eq_true, if_false] at heq
        have hlen := congrArg List.length heq
        simp only [List.length_append, List.length_cons] at hlen
        omega
      · rw [hnt] at heq
        simp only [if_true] at heq
        rw [hδ] at heq
        have hlen := congrArg List.length heq
        simp only [List.length_append, List.length_cons] at hlen
        omega
    · intro hc
      rw [pop_nochild b h0 hc]
  · intro b h0 hc
    exact pop_nochild b h0 hc
  · intro b e he h0 hc
    exact pop_child b e he h0 hc
  · intro b s h0 hne
    simp only [builder_text]
    exact hmark b true h0 hne
  · intro b n a hok
    unfold builder_element at hok ⊢
    dsimp only at hok ⊢
    split at hok
    · simp at hok
    · rename_i hlt
      rw [if_neg hlt]
      rfl

/-- C2 witness: after opening element `a` on a fresh builder the frame is
childless and `pop` emits the self-close, giving `<a/>`. -/
theorem C2_selfclose_iff_witness :
    (0 : Int) ≤ ((builder_element (init 0 0) ['a'] []).2).depth ∧
    (((builder_element (init 0 0) ['a'] []).2).stack.headD default).has_child = false ∧
    (pop ((builder_element (init 0 0) ['a'] []).2)).2.out = "<a/>".toList := by
  refine ⟨by decide, by decide, ?_⟩
  rw [C2_selfclose_iff.2.1 _ (by decide) (by decide)]
  decide

/-- C3: escaping round-trip.  For any input free of illegal bytes,
`append_string` succeeds and appends exactly the byte stream in which each
of the five special bytes is replaced by its named entity and every other
byte is kept verbatim; reversing the five entities recovers the original
bytes.  For input containing none of the five special bytes (and no illegal
bytes) the emitted bytes are identical to the input.  The same holds for
the `text()` operation, which routes through `append_string`. -/
theorem C3_escaping_roundtrip :
    (∀ (acc s : List Char), escapable s →
      append_string acc s = (none, acc ++ escapeAll s) ∧
      unescapeXml (escapeAll s) = s) ∧
    (∀ (acc s : List Char), allSafe s → append_string acc s = (none, acc ++ s)) ∧
    (∀ (b : BState) (s : List Char), wfB b → escapable s →
      builder_text b s = (none, { b with out := b.out ++ gtB b ++ escapeAll s, stack := markTopF b.stack true })) := by
  refine ⟨?_, ?_, ?_⟩
  · intro acc s h
    exact ⟨append_string_eq acc s h, unescape_escapeAll h⟩
  · intro acc s h
    rw [append_string_eq acc s (escapable_of_allSafe h), escapeAll_of_allSafe h]
  · intro b s hwf hs
    exact builder_text_ok b s hwf hs

/-- C3 witness: a concrete payload with four of the special bytes escapes,
round-trips and a safe payload passes through byte-identically. -/
theorem C3_escaping_roundtrip_witness :
    escapable "a<b\"&c".toList ∧
    (append_string [] "a<b\"&c".toList = (none, [] ++ escapeAll "a<b\"&c".toList) ∧
      unescapeXml (escapeAll "a<b\"&c".toList) = "a<b\"&c".toList) ∧
    append_string [] "xyz".toList = (none, [] ++ "xyz".toList) :=
  ⟨by decide, C3_escaping_roundtrip.1 [] _ (by decide),
    C3_escaping_roundtrip.2.1 [] _ (by decide)⟩

/-- C4 (code bug): the classification table marks NUL (byte 0) illegal
(code 58, the ':' class) and a non-NUL illegal byte such as 0x01 does raise
InvalidCharacter, but the slow-path loop guard stops at an embedded NUL:
the input "a", NUL, "b" is emitted as just "a" with no error - the NUL and
every following byte are silently dropped, contradicting the claim that an
illegal byte always fails the operation and is never dropped. -/
theorem C4_nul_silently_truncates :
    xmlFriendlyCode 0 = 58 ∧
    append_string [] ['a', '\x00', 'b'] = (none, ['a']) ∧
    append_string [] ['\x01'] = (some XErr.invalidCharacter, []) ∧
    builder_text (init 0 0) ['a', '\x00', 'b'] = (none, { init 0 0 with out := ['a'] }) :=
  ⟨by decide, by decide, by decide, by decide⟩

/-- C5 (counterexample): an attribute value containing a double quote is
written verbatim; element `a` with attribute value a lone `"` emits the
malformed bytes with three quotes, not the entity-escaped form the claim
requires. -/
theorem C5_attr_value_unescaped_cex :
    (builder_element (init 0 0) "a".toList [("k".toList, "\"".toList)]).2.out
      = "<a k=\"\"\"".toList ∧
    (builder_element (init 0 0) "a".toList [("k".toList, "\"".toList)]).2.out
      ≠ "<a k=\"&quot;\"".toList :=
  ⟨by decide, by decide⟩

/-- C5 (amended): each attribute is written as ` key="value"` with the key
escaped through the Escaper but the value appended verbatim - no escaping
and no illegal-byte validation is applied to attribute values, for any
value whatsoever. -/
theorem C5_attr_value_verbatim (out k v : List Char) (h : escapable k) :
    append_attr out k v = (none, out ++ ' ' :: (escapeAll k ++ '=' :: '"' :: (v ++ ['"']))) :=
  append_attr_eq out k v h

/-- C5 witness: the quote-valued attribute from the counterexample written
verbatim through append_attr. -/
theorem C5_attr_value_verbatim_witness :
    escapable "k".toList ∧
    append_attr [] "k".toList "\"".toList
      = (none, [] ++ ' ' :: (escapeAll "k".toList ++ '=' :: '"' :: ("\"".toList ++ ['"']))) :=
  ⟨by decide, C5_attr_value_verbatim [] _ _ (by decide)⟩

/-- C6 (code bug): comment("hi") emits the opener, the raw payload, and then
only the first five bytes of the source's closer literal - a space, two
hyphens, a slash and a greater-than sign - instead of the standard XML
comment terminator the claim (and the spec's stated contract) requires. -/
theorem C6_comment_wrong_terminator :
    builder_comment (init 0 0) "hi".toList = { init 0 0 with out := "<!-- hi --/>".toList } ∧
    (builder_comment (init 0 0) "hi".toList).out ≠ "<!-- hi -->".toList :=
  ⟨by decide, by decide⟩

set_option maxRecDepth 40000 in
/-- C7 (counterexample): after the failed 129th push the builder state is
not untouched: depth is 128 (one past the topmost frame, not 127
designating it) and the parent frame was marked, emitting its `>`. -/
theorem C7_failed_push_mutates_cex :
    (runOps (List.replicate 129 (Op.element ['a'] [])) (init 0 0)).2.depth ≠ 127 ∧
    (runOps (List.replicate 129 (Op.element ['a'] [])) (init 0 0)).2.out
      ≠ (runOps (List.replicate 128 (Op.element ['a'] [])) (init 0 0)).2.out :=
  ⟨by decide, by decide⟩

set_option maxRecDepth 40000 in
/-- C7 (amended): opening 128 nested elements succeeds (depth 127); the
129th open fails with TooDeeplyNested; the 128 stored frames keep their
names, but the failed call first marks the 128th frame as having a child -
appending its `>` to the output - and leaves depth incremented to 128. -/
theorem C7_depth_boundary :
    (runOps (List.replicate 128 (Op.element ['a'] [])) (init 0 0)).1 = none ∧
    (runOps (List.replicate 128 (Op.element ['a'] [])) (init 0 0)).2.depth = 127 ∧
    (runOps (List.replicate 129 (Op.element ['a'] [])) (init 0 0)).1 = some XErr.tooDeeplyNested ∧
    (runOps (List.replicate 129 (Op.element ['a'] [])) (init 0 0)).2.stack.map Element.name
      = (runOps (List.replicate 128 (Op.element ['a'] [])) (init 0 0)).2.stack.map Element.name ∧
    (runOps (List.replicate 129 (Op.element ['a'] [])) (init 0 0)).2.depth = 128 ∧
    (runOps (List.replicate 129 (Op.element ['a'] [])) (init 0 0)).2.out
      = (runOps (List.replicate 128 (Op.element ['a'] [])) (init 0 0)).2.out ++ ['>'] :=
  ⟨by decide, by decide, by decide, by decide, by decide, by decide⟩

/-- C8: with indent = 2, opening `outer`, opening and popping empty
`inner`, popping `outer` and closing the document emits exactly the claimed
bytes with a newline and two spaces before `inner`, a newline before the
close of `outer`, and a trailing newline. -/
theorem C8_indent_two_exact :
    runOps [Op.element "outer".toList [], Op.element "inner".toList [], Op.pop, Op.pop, Op.close]
      (init 2 0)
    = (none, { init 2 0 with out := "<outer>\n  <inner/>\n</outer>\n".toList }) := by
  decide

/-- C9 (code bug): `bclose` appends the trailing newline unconditionally
and re-closes the owned FILE; a second close() therefore appends a second
newline to a memory builder and calls fclose twice on a file builder,
contradicting the claimed idempotence. -/
theorem C9_close_not_idempotent :
    (bclose (init 0 0)).out = ['\n'] ∧
    (bclose (bclose (init 0 0))).out = ['\n', '\n'] ∧
    (bclose (bclose { init 0 3 with hasFile := true })).fcloses = 2 :=
  ⟨by decide, by decide, by decide⟩

/-- C10: `to_s` decides whether to append a trailing newline by reading the
byte just before the buffer tail (`tailRead`); that read is within the
buffer iff at least one byte has been written, so on a freshly constructed
builder with an empty buffer the access is out of bounds (modelled as the
`none` case of `tailRead`); and when the last byte already is a newline,
`to_s` leaves the buffer unchanged, so repeated calls append nothing. -/
theorem C10_to_s_tail_read :
    ((init 0 0).out = [] ∧ tailRead (init 0 0) = none) ∧
    (∀ b : BState, tailRead b = none ↔ b.out = []) ∧
    (∀ b : BState, b.fd = 0 → tailRead b = some '\n' →
      to_s b = (none, b, some b.out)) := by
  refine ⟨⟨rfl, rfl⟩, ?_, ?_⟩
  · intro b
    unfold tailRead
    constructor
    · intro h
      by_contra hne
      have hs := List.getLast?_isSome.mpr hne
      rw [h] at hs
      simp at hs
    · intro h
      rw [h]
      rfl
  · intro b hfd hlast
    unfold to_s
    rw [if_neg (by simp [hfd])]
    rw [hlast]
    simp

/-- C10 witness: a builder whose buffer ends in a newline is returned
unchanged by to_s, and the fresh builder's tail read is out of bounds. -/
theorem C10_to_s_tail_read_witness :
    ({ init 0 0 with out := ['\n'] } : BState).fd = 0 ∧
    tailRead { init 0 0 with out := ['\n'] } = some '\n' ∧
    to_s { init 0 0 with out := ['\n'] }
      = (none, { init 0 0 with out := ['\n'] },
          some ({ init 0 0 with out := ['\n'] } : BState).out) :=
  ⟨by decide, by decide, C10_to_s_tail_read.2.2 _ (by decide) (by decide)⟩

end OxBuilder
